import Mathlib

/-!
Verification of the init2winit distributed trainer core
(`trainer_lib/trainer_per_host.py`, `training_metrics_grabber.py`,
`optimizer_lib/optimizers.py`) against its natural-language specification.

The Python pytrees of numeric arrays are shallowly embedded as flattened
lists of exact scalars (rationals where the code is pure bookkeeping,
reals where the code computes square roots).  Python dictionaries are
embedded as association lists with last-write-wins insertion, matching
the assignment semantics of `d[k] = v`.  Fatal `raise` statements are
embedded as `Except.error`.
-/

namespace I2W

/-! ## Python dictionaries as association lists

`dictInsert` models `d[k] = v`: it replaces the value of an existing key
in place (keeping its position, as CPython dicts preserve insertion
order), and appends a fresh key at the end. -/

def dictInsert {V : Type} (d : List (String × V)) (k : String) (v : V) :
    List (String × V) :=
  match d with
  | [] => [(k, v)]
  | (k', v') :: rest =>
      if k' = k then (k, v) :: rest else (k', v') :: dictInsert rest k v

def dictLookup {V : Type} (d : List (String × V)) (k : String) : Option V :=
  match d with
  | [] => none
  | (k', v') :: rest => if k' = k then some v' else dictLookup rest k

def dictKeys {V : Type} (d : List (String × V)) : List String := d.map (·.1)

def dictContains {V : Type} (d : List (String × V)) (k : String) : Bool :=
  (dictLookup d k).isSome

theorem dictLookup_insert_self {V : Type} (d : List (String × V)) (k : String)
    (v : V) : dictLookup (dictInsert d k v) k = some v := by
  induction d with
  | nil => simp [dictInsert, dictLookup]
  | cons hd tl ih =>
      obtain ⟨k0, v0⟩ := hd
      by_cases h : k0 = k
      · simp [dictInsert, dictLookup, h]
      · simp [dictInsert, dictLookup, h, ih]

theorem dictLookup_insert_ne {V : Type} (d : List (String × V)) (k k' : String)
    (v : V) (h : k ≠ k') : dictLookup (dictInsert d k v) k' = dictLookup d k' := by
  induction d with
  | nil => simp [dictInsert, dictLookup, h]
  | cons hd tl ih =>
      obtain ⟨k0, v0⟩ := hd
      by_cases hh : k0 = k
      · subst hh
        simp [dictInsert, dictLookup, h]
      · by_cases hk' : k0 = k'
        · simp [dictInsert, dictLookup, hh, hk', Ne.symm h]
        · simp [dictInsert, dictLookup, hh, hk', ih]

theorem dictKeys_insert_contains {V : Type} (d : List (String × V)) (k : String)
    (v : V) (h : dictContains d k = true) :
    dictKeys (dictInsert d k v) = dictKeys d := by
  induction d with
  | nil => simp [dictContains, dictLookup] at h
  | cons hd tl ih =>
      obtain ⟨k0, v0⟩ := hd
      by_cases hh : k0 = k
      · simp [dictInsert, dictKeys, hh]
      · have htl : dictContains tl k = true := by
          simpa [dictContains, dictLookup, hh] using h
        simp [dictInsert, dictKeys, hh]
        simpa [dictKeys] using ih htl

theorem dictKeys_insert_not_contains {V : Type} (d : List (String × V))
    (k : String) (v : V) (h : dictContains d k = false) :
    dictKeys (dictInsert d k v) = dictKeys d ++ [k] := by
  induction d with
  | nil => simp [dictInsert, dictKeys]
  | cons hd tl ih =>
      obtain ⟨k0, v0⟩ := hd
      have hh : ¬ k0 = k := by
        intro he
        simp [dictContains, dictLookup, he] at h
      have htl : dictContains tl k = false := by
        simpa [dictContains, dictLookup, hh] using h
      simp [dictInsert, dictKeys, hh]
      simpa [dictKeys] using ih htl

theorem dictContains_iff_mem_keys {V : Type} (d : List (String × V))
    (k : String) : dictContains d k = true ↔ k ∈ dictKeys d := by
  induction d with
  | nil => simp [dictContains, dictLookup, dictKeys]
  | cons hd tl ih =>
      obtain ⟨k0, v0⟩ := hd
      by_cases hh : k0 = k
      · simp [dictContains, dictLookup, dictKeys, hh]
      · simp only [dictContains, dictLookup, dictKeys] at ih ⊢
        simp [hh, ih, Ne.symm hh]

/-! ## Learning-rate injection (`_inject_learning_rate`, trainer_per_host.py)

The optax optimizer states relevant to the injector are embedded as a
closed inductive type: `injectHyperparams` models
`optax.InjectHyperparamsState` (only its `hyperparams` dict matters to
the injector), `gradientAccumulator` models
`gradient_accumulator.GradientAccumulatorState` with its wrapped
`base_state`, and `other` models every state shape the `isinstance`
chain does not recognize.  Python mutates the state in place; the
embedding threads the state functionally, with `Except.error` for the
fatal `raise ValueError`. -/

inductive OptState : Type
  | injectHyperparams (hyperparams : List (String × ℚ))
  | gradientAccumulator (base : OptState)
  | other (desc : String)

def inject_learning_rate : OptState → ℚ → Except String OptState
  | OptState.injectHyperparams hp, lr =>
      if dictContains hp "learning_rate" then
        Except.ok (OptState.injectHyperparams (dictInsert hp "learning_rate" lr))
      else
        Except.ok (OptState.injectHyperparams hp)
  | OptState.gradientAccumulator base, lr =>
      (inject_learning_rate base lr).map OptState.gradientAccumulator
  | OptState.other d, _ =>
      Except.error ("Unsupported optimizer_state type given when trying to " ++
        "inject the learning rate: " ++ d)

/-- Reading the designated learning-rate slot of an optimizer state. -/
def readLearningRate : OptState → Option ℚ
  | OptState.injectHyperparams hp => dictLookup hp "learning_rate"
  | OptState.gradientAccumulator base => readLearningRate base
  | OptState.other _ => none

/-- The state shapes on which the injector succeeds with an observable
learning-rate slot: an `InjectHyperparamsState` whose hyperparams contain
the key, possibly below a chain of gradient-accumulator wrappers. -/
def hasLrSlot : OptState → Prop
  | OptState.injectHyperparams hp => dictContains hp "learning_rate" = true
  | OptState.gradientAccumulator base => hasLrSlot base
  | OptState.other _ => False

/-- C7: learning-rate injection contract.  (1) On any state whose
(possibly wrapped) hyperparams contain a `learning_rate` slot —
in particular an `InjectHyperparamsState` with that slot — injection
succeeds and reading the slot afterwards returns exactly the injected
value.  (2) On a `GradientAccumulatorState` the injection is forwarded
verbatim to the wrapped `base_state`, so the same guarantee holds
through the wrapper.  (3) On any other state shape the injection fails
fatally with the unsupported-state error; since the error is raised
before any slot assignment, no modification is returned at all. -/
theorem lr_injection_contract :
    (∀ s lr, hasLrSlot s → ∃ s', inject_learning_rate s lr = Except.ok s' ∧
      readLearningRate s' = some lr)
    ∧ (∀ base lr, inject_learning_rate (OptState.gradientAccumulator base) lr =
        (inject_learning_rate base lr).map OptState.gradientAccumulator)
    ∧ (∀ d lr, inject_learning_rate (OptState.other d) lr =
        Except.error ("Unsupported optimizer_state type given when trying to " ++
          "inject the learning rate: " ++ d)) := by
  refine ⟨?_, fun base lr => rfl, fun d lr => rfl⟩
  intro s
  induction s with
  | injectHyperparams hp =>
      intro lr h
      have h' : dictContains hp "learning_rate" = true := h
      refine ⟨OptState.injectHyperparams (dictInsert hp "learning_rate" lr), ?_, ?_⟩
      · simp [inject_learning_rate, h']
      · simpa [readLearningRate] using dictLookup_insert_self hp "learning_rate" lr
  | gradientAccumulator base ih =>
      intro lr h
      obtain ⟨s', hs', hr⟩ := ih lr h
      exact ⟨OptState.gradientAccumulator s',
        by simp [inject_learning_rate, hs', Except.map],
        by simpa [readLearningRate] using hr⟩
  | other d =>
      intro lr h
      exact absurd h (by simp [hasLrSlot])

/-- Witness for `lr_injection_contract` at concrete states: a wrapped
state with a learning-rate slot, a bare accumulator wrapper, and an
unrecognized state. -/
theorem lr_injection_contract_witness :
    (∃ s', inject_learning_rate
        (OptState.gradientAccumulator
          (OptState.injectHyperparams [("learning_rate", (0 : ℚ))])) (7/2) =
        Except.ok s' ∧ readLearningRate s' = some (7/2))
    ∧ inject_learning_rate
        (OptState.gradientAccumulator (OptState.injectHyperparams [])) 1 =
        (inject_learning_rate (OptState.injectHyperparams []) 1).map
          OptState.gradientAccumulator
    ∧ inject_learning_rate (OptState.other "ScaleByAdamState") 1 =
        Except.error ("Unsupported optimizer_state type given when trying to " ++
          "inject the learning rate: " ++ "ScaleByAdamState") :=
  ⟨lr_injection_contract.1
      (OptState.gradientAccumulator
        (OptState.injectHyperparams [("learning_rate", (0 : ℚ))])) (7/2)
      (by simp [hasLrSlot, dictContains, dictLookup]),
    lr_injection_contract.2.1 (OptState.injectHyperparams []) 1,
    lr_injection_contract.2.2 "ScaleByAdamState" 1⟩

/-! ## Per-host collective groups (`_get_axis_index_groups`, trainer_per_host.py)

The Python builds, for `num_p` processes with `num_d` local devices
each, the list `[[i*num_d, ..., i*num_d + num_d - 1] for i in
range(num_p)]`.  `pmeanGrouped` embeds the semantics of
`lax.pmean(..., axis_index_groups=groups)`: each device receives the
mean of the values held by the devices of the (first) group containing
it.  `stepPmean` is the collective of the per-step `update` (lines
291-293), which averages `(cost, grad)` with exactly these groups. -/

def get_axis_index_groups (num_d num_p : ℕ) : List (List ℕ) :=
  (List.range num_p).map (fun i => (List.range num_d).map (fun j => i * num_d + j))

def pmeanGrouped (groups : List (List ℕ)) (vals : ℕ → ℚ) (device : ℕ) : ℚ :=
  match groups.find? (fun g => decide (device ∈ g)) with
  | some g => (g.map vals).sum / (g.length : ℚ)
  | none => vals device

def stepPmean (num_d num_p : ℕ) (vals : ℕ → ℚ) (device : ℕ) : ℚ :=
  pmeanGrouped (get_axis_index_groups num_d num_p) vals device

theorem mem_group_iff (num_d i a : ℕ) :
    a ∈ (List.range num_d).map (fun j => i * num_d + j) ↔
      i * num_d ≤ a ∧ a < i * num_d + num_d := by
  simp only [List.mem_map, List.mem_range]
  constructor
  · rintro ⟨j, hj, rfl⟩
    omega
  · rintro ⟨h1, h2⟩
    exact ⟨a - i * num_d, by omega, by omega⟩

theorem find?_range_eq_some {p : ℕ → Bool} {n i0 : ℕ} (h0 : p i0 = true)
    (hlt : i0 < n) (hmin : ∀ j, j < i0 → p j = false) :
    (List.range n).find? p = some i0 := by
  induction n with
  | zero => omega
  | succ m ih =>
      rw [List.range_succ, List.find?_append]
      rcases Nat.lt_or_ge i0 m with hm | hm
      · rw [ih hm]
        rfl
      · have hi0 : i0 = m := by omega
        subst hi0
        have hnone : (List.range i0).find? p = none := by
          rw [List.find?_eq_none]
          intro x hx
          simp [hmin x (List.mem_range.mp hx)]
        simp [hnone, h0]

/-- C9: the per-step averaging of cost and gradient is per host.
`_get_axis_index_groups` returns exactly `num_p` groups; group `i` is
the contiguous block of the `num_d` device indices of process `i`; the
groups are pairwise disjoint and jointly enumerate all `num_p * num_d`
devices in order; and the pmean used by the per-step `update` gives
every device the average over exactly its own host's device block, so
no averaging group spans two hosts. -/
theorem axis_index_groups_per_host (num_d num_p : ℕ) (hd : 0 < num_d) :
    (get_axis_index_groups num_d num_p).length = num_p
    ∧ (∀ i, i < num_p → (get_axis_index_groups num_d num_p).getD i [] =
        List.range' (i * num_d) num_d)
    ∧ (get_axis_index_groups num_d num_p).flatten = List.range (num_p * num_d)
    ∧ List.Pairwise (fun g g' => ∀ a ∈ g, ∀ b ∈ g', a ≠ b)
        (get_axis_index_groups num_d num_p)
    ∧ (∀ (vals : ℕ → ℚ) (dev : ℕ), dev < num_p * num_d →
        stepPmean num_d num_p vals dev =
          ((List.range' ((dev / num_d) * num_d) num_d).map vals).sum / (num_d : ℚ)) := by
  refine ⟨by simp [get_axis_index_groups], ?_, ?_, ?_, ?_⟩
  · intro i hi
    rw [List.range'_eq_map_range]
    have : (get_axis_index_groups num_d num_p).getD i [] =
        (List.range num_d).map (fun j => i * num_d + j) := by
      rw [List.getD_eq_getElem _ _ (by simpa [get_axis_index_groups] using hi)]
      simp [get_axis_index_groups]
    rw [this]
  · induction num_p with
    | zero => simp [get_axis_index_groups]
    | succ q ih =>
        rw [get_axis_index_groups, List.range_succ, List.map_append,
          List.flatten_append]
        rw [get_axis_index_groups] at ih
        rw [ih]
        have : (q + 1) * num_d = q * num_d + num_d := by ring
        rw [this, List.range_add]
        simp
  · rw [get_axis_index_groups, List.pairwise_map]
    refine List.Pairwise.imp ?_ (List.pairwise_lt_range num_p)
    intro i i' hlt a ha b hb
    rw [mem_group_iff] at ha hb
    have : a < b := by
      have h1 : a < i * num_d + num_d := ha.2
      have h2 : i' * num_d ≤ b := hb.1
      have h3 : i * num_d + num_d ≤ i' * num_d := by
        have := Nat.succ_le_of_lt hlt
        calc i * num_d + num_d = (i + 1) * num_d := by ring
        _ ≤ i' * num_d := Nat.mul_le_mul_right _ this
      omega
    omega
  · intro vals dev hdev
    have hq : dev / num_d < num_p :=
      Nat.div_lt_of_lt_mul (by rwa [Nat.mul_comm num_p num_d] at hdev)
    have e1 : num_d * (dev / num_d) + dev % num_d = dev := Nat.div_add_mod dev num_d
    have e2 : dev % num_d < num_d := Nat.mod_lt _ hd
    have e3 : (dev / num_d) * num_d = num_d * (dev / num_d) := Nat.mul_comm _ _
    have hfind : (List.range num_p).find?
        ((fun g => decide (dev ∈ g)) ∘ fun i => (List.range num_d).map
          (fun j => i * num_d + j)) = some (dev / num_d) := by
      apply find?_range_eq_some
      · simp only [Function.comp, decide_eq_true_eq, mem_group_iff]
        omega
      · exact hq
      · intro j hj
        simp only [Function.comp, decide_eq_false_iff_not, mem_group_iff, not_and,
          not_lt]
        intro hle
        have hm1 : (j + 1) * num_d ≤ (dev / num_d) * num_d :=
          Nat.mul_le_mul_right _ (by omega)
        have hm2 : (dev / num_d) * num_d ≤ dev := Nat.div_mul_le_self dev num_d
        have hm3 : (j + 1) * num_d = j * num_d + num_d := by ring
        omega
    rw [stepPmean, pmeanGrouped, get_axis_index_groups, List.find?_map, hfind]
    simp only [Option.map_some']
    rw [List.range'_eq_map_range]
    simp

/-- Witness for `axis_index_groups_per_host` with two processes of two
devices each: device 3 averages over the block of process 1 only. -/
theorem axis_index_groups_per_host_witness :
    (get_axis_index_groups 2 2).length = 2
    ∧ (get_axis_index_groups 2 2).getD 1 [] = List.range' 2 2
    ∧ (get_axis_index_groups 2 2).flatten = List.range 4
    ∧ stepPmean 2 2 (fun n => (n : ℚ)) 3 =
        ((List.range' ((3 / 2) * 2) 2).map (fun n => (n : ℚ))).sum / (2 : ℚ) := by
  have h := axis_index_groups_per_host 2 2 (by decide)
  exact ⟨h.1, h.2.1 1 (by decide), h.2.2.1, h.2.2.2.2 (fun n => (n : ℚ)) 3 (by decide)⟩

/-! ## Checkpoint restore and the training-loop step counter
(`train`, trainer_per_host.py, lines 524-542 and the batch loop)

`fold_in` models `jax.random.fold_in`, which is external to the
repository.  Modelled from the spec: folding data into a seed perturbs
it so that "resumed training does not replay an identical shuffle
order"; the model makes the fold a history-accumulating (hence
injective and never-identity) operation on seeds. -/

def fold_in (seed : List ℕ) (data : ℕ) : List ℕ := data :: seed

/-- The restore branch of `train`: on restore, bump the preemption
counter and fold the restored `global_step` into `data_rng`; otherwise
leave both unchanged.  Returns the `(data_rng, preemption_count)` pair
used to build the dataset and the reports. -/
def restoreSetup (is_restored : Bool) (global_step : ℕ) (data_rng : List ℕ)
    (preemption_count : ℕ) : List ℕ × ℕ :=
  if is_restored then (fold_in data_rng global_step, preemption_count + 1)
  else (data_rng, preemption_count)

/-- The successive values taken by the `global_step` variable during the
batch loop, starting from its (possibly restored) value, when the data
iterator yields `n` batches: the step is advanced by one per batch. -/
def globalStepValues : ℕ → ℕ → List ℕ
  | s, 0 => [s]
  | s, n + 1 => s :: globalStepValues (s + 1) n

theorem globalStepValues_eq_range' (s n : ℕ) :
    globalStepValues s n = List.range' s (n + 1) := by
  induction n generalizing s with
  | zero => simp [globalStepValues, List.range']
  | succ m ih => simp [globalStepValues, List.range', ih]

/-- C8: restoring from a checkpoint written at step `S` bumps the
preemption counter by exactly one and replaces the data-shuffle seed by
folding `S` into it; the folded seed differs from the seed a fresh run
would use; the subsequent `global_step` progression over the remaining
batches is `S, S + 1, S + 2, ...`; and without a restore the seed and
the counter are unchanged. -/
theorem restore_seed_and_step_progression (S pc n : ℕ) (rng : List ℕ) :
    restoreSetup true S rng pc = (fold_in rng S, pc + 1)
    ∧ fold_in rng S ≠ rng
    ∧ globalStepValues S n = List.range' S (n + 1)
    ∧ restoreSetup false S rng pc = (rng, pc) := by
  refine ⟨rfl, ?_, globalStepValues_eq_range' S n, rfl⟩
  intro h
  have := congrArg List.length h
  simp [fold_in] at this

/-- Witness for `restore_seed_and_step_progression`: restoring at step 5
with two further batches. -/
theorem restore_seed_and_step_progression_witness :
    restoreSetup true 5 [3] 0 = (fold_in [3] 5, 1)
    ∧ fold_in [3] 5 ≠ [3]
    ∧ globalStepValues 5 2 = List.range' 5 3
    ∧ restoreSetup false 5 [3] 0 = ([3], 0) :=
  restore_seed_and_step_progression 5 0 2 [3]

/-! ## Evaluation cadence check (`train`, trainer_per_host.py, lines 669-675)

In the batch loop, `global_step += 1` happens strictly before the
cadence test `trainer_utils.should_eval(global_step, eval_frequency,
eval_steps)`.  `should_eval` itself lives outside src/.  Modelled from
the spec: evaluation happens "either at a fixed frequency or at an
explicit list of steps", the list overriding the frequency when given. -/

def should_eval (global_step eval_frequency : ℕ)
    (eval_steps : Option (List ℕ)) : Bool :=
  match eval_steps with
  | some steps => decide (global_step ∈ steps)
  | none => global_step % eval_frequency == 0

/-- The values of `global_step` at which the cadence check runs: the
check follows the increment, so with `n` batches from start value `s`
the checked values are `s + 1, ..., s + n`. -/
def checkedEvalSteps : ℕ → ℕ → List ℕ
  | _, 0 => []
  | s, n + 1 => (s + 1) :: checkedEvalSteps (s + 1) n

/-- The checked steps on which an evaluation actually triggers. -/
def triggeredEvalSteps (start n eval_frequency : ℕ)
    (eval_steps : Option (List ℕ)) : List ℕ :=
  (checkedEvalSteps start n).filter (should_eval · eval_frequency eval_steps)

/-- C10: the cadence check only sees step values that are at least the
starting step plus one, because the check runs after the increment of
`global_step`; in particular the value 0 in an `eval_steps` list never
triggers an evaluation. -/
theorem eval_check_after_increment (start n : ℕ) :
    (∀ s, s ∈ checkedEvalSteps start n → start + 1 ≤ s)
    ∧ (∀ eval_frequency eval_steps,
        0 ∉ triggeredEvalSteps start n eval_frequency eval_steps) := by
  have hmem : ∀ s, s ∈ checkedEvalSteps start n → start + 1 ≤ s := by
    induction n generalizing start with
    | zero => intro s hs; simp [checkedEvalSteps] at hs
    | succ m ih =>
        intro s hs
        rcases (by simpa [checkedEvalSteps] using hs :
            s = start + 1 ∨ s ∈ checkedEvalSteps (start + 1) m) with h | h
        · omega
        · have := ih (start + 1) s h
          omega
  refine ⟨hmem, ?_⟩
  intro eval_frequency eval_steps h0
  have h0' : (0 : ℕ) ∈ checkedEvalSteps start n :=
    List.mem_of_mem_filter h0
  have := hmem 0 h0'
  omega

/-- Witness for `eval_check_after_increment`: starting at step 0 with
three batches, step 1 is checked (so is at least 1) and an
`eval_steps` list containing 0 triggers nothing at 0. -/
theorem eval_check_after_increment_witness :
    (1 ∈ checkedEvalSteps 0 3 → 0 + 1 ≤ 1)
    ∧ 0 ∉ triggeredEvalSteps 0 3 10 (some [0, 2]) :=
  ⟨(eval_check_after_increment 0 3).1 1,
    (eval_check_after_increment 0 3).2 10 (some [0, 2])⟩

/-! ## Evaluation aggregation (`evaluate`, `_merge_and_apply_prefix`,
`eval_metrics`, trainer_per_host.py)

Metric scalars are embedded as `MetricVal := Option ℚ`, where `none`
models a floating-point NaN (the only property of the value that
`evaluate` inspects is `np.isnan`).  The CLU metric collection, its
`merge` and its `compute` are the external collaborators of `evaluate`
and are taken as parameters, exactly as `evaluate_batch_pmapped` is a
parameter of the Python function. -/

abbrev MetricVal : Type := Option ℚ

/-- The merged collection after the batch loop of `evaluate`: `none`
when the iterator was empty, otherwise the first batch's metrics merged
with every later batch's metrics in order. -/
def mergedMetrics {B M : Type} (evalBatch : B → M) (merge : M → M → M) :
    List B → Option M
  | [] => none
  | b :: rest => some (rest.foldl (fun acc b' => merge acc (evalBatch b')) (evalBatch b))

/-- `evaluate` (lines 184-209): fold the batch iterator, then `compute`
and raise `TrainingDivergedError` at the first NaN scalar; an empty
iterator produces no metrics (`none`) and no error. -/
def evaluate {B M : Type} (evalBatch : B → M) (merge : M → M → M)
    (compute : M → List (String × MetricVal)) (batch_iter : List B) :
    Except String (Option (List (String × MetricVal))) :=
  match mergedMetrics evalBatch merge batch_iter with
  | none => Except.ok none
  | some m =>
      let computed := compute m
      match computed.find? (fun kv => kv.2.isNone) with
      | some kv => Except.error ("NaN detected in " ++ kv.1)
      | none => Except.ok (some computed)

/-- C4: `evaluate` raises `TrainingDivergedError` if and only if the
batch iterator is non-empty and the computed metrics contain a NaN
scalar; with a non-empty iterator and no NaN it returns the computed
metrics mapping without raising. -/
theorem evaluate_nan_iff {B M : Type} (evalBatch : B → M) (merge : M → M → M)
    (compute : M → List (String × MetricVal)) (batch_iter : List B) :
    ((∃ e, evaluate evalBatch merge compute batch_iter = Except.error e) ↔
      (∃ m, mergedMetrics evalBatch merge batch_iter = some m ∧
        (compute m).any (fun kv => kv.2.isNone) = true))
    ∧ (∀ m, mergedMetrics evalBatch merge batch_iter = some m →
        (compute m).any (fun kv => kv.2.isNone) = false →
        evaluate evalBatch merge compute batch_iter = Except.ok (some (compute m))) := by
  constructor
  · rcases hm : mergedMetrics evalBatch merge batch_iter with _ | m
    · constructor
      · rintro ⟨e, he⟩
        simp [evaluate, hm] at he
      · rintro ⟨m', hm', _⟩
        cases hm'
    · rcases hf : (compute m).find? (fun kv => kv.2.isNone) with _ | kv
      · have hany : (compute m).any (fun kv => kv.2.isNone) = false := by
          rw [List.any_eq_false]
          intro x hx
          have := List.find?_eq_none.mp hf x hx
          simpa using this
        constructor
        · rintro ⟨e, he⟩
          simp [evaluate, hm, hf] at he
        · rintro ⟨m', hm', hany'⟩
          have hmm : m = m' := Option.some_inj.mp hm'
          subst hmm
          rw [hany] at hany'
          cases hany'
      · have hany : (compute m).any (fun kv => kv.2.isNone) = true := by
          rw [List.any_eq_true]
          refine ⟨kv, List.mem_of_find?_eq_some hf, ?_⟩
          have := List.find?_some hf
          simpa using this
        constructor
        · intro _
          exact ⟨m, rfl, hany⟩
        · intro _
          exact ⟨"NaN detected in " ++ kv.1, by simp [evaluate, hm, hf]⟩
  · intro m hm hany
    have hf : (compute m).find? (fun kv => kv.2.isNone) = none := by
      rw [List.find?_eq_none]
      intro x hx hpx
      rw [List.any_eq_false] at hany
      exact hany x hx hpx
    simp [evaluate, hm, hf]

/-- Witness for `evaluate_nan_iff`: a one-batch iterator whose single
metric is NaN raises; the same iterator with a finite value returns the
metrics. -/
theorem evaluate_nan_iff_witness :
    (∃ e, evaluate (fun _ : ℕ => [("loss", (none : MetricVal))]) (fun a _ => a)
      id [0] = Except.error e)
    ∧ evaluate (fun _ : ℕ => [("loss", (some 1 : MetricVal))]) (fun a _ => a)
      id [0] = Except.ok (some [("loss", some 1)]) :=
  ⟨(evaluate_nan_iff (fun _ : ℕ => [("loss", (none : MetricVal))]) (fun a _ => a)
      id [0]).1.mpr ⟨[("loss", none)], rfl, rfl⟩,
    (evaluate_nan_iff (fun _ : ℕ => [("loss", (some 1 : MetricVal))]) (fun a _ => a)
      id [0]).2 [("loss", some 1)] rfl rfl⟩

/-- `_merge_and_apply_prefix` (lines 324-328): copy `d1` and assign
`d1[prefix + key] = d2[key]` for every key of `d2` in order. -/
def merge_and_apply_prefixed {V : Type} (d1 d2 : List (String × V))
    (pre : String) : List (String × V) :=
  d2.foldl (fun acc kv => dictInsert acc (pre ++ kv.1) kv.2) d1

/-- The per-split body of `eval_metrics` (lines 363-372): splits are
processed in the order train, valid, test; a split whose `evaluate`
returned `None` is skipped entirely. -/
def eval_metrics_from {V : Type}
    (train_m valid_m test_m : Option (List (String × V))) : List (String × V) :=
  [(train_m, "train/"), (valid_m, "valid/"), (test_m, "test/")].foldl
    (fun acc p =>
      match p.1 with
      | some m => merge_and_apply_prefixed acc m p.2
      | none => acc) []

/-- `eval_metrics` composed with `evaluate` on the three split
iterators; a `TrainingDivergedError` from any split propagates. -/
def eval_metrics {B M : Type} (evalBatch : B → M) (merge : M → M → M)
    (compute : M → List (String × MetricVal))
    (train_iter valid_iter test_iter : List B) :
    Except String (List (String × MetricVal)) := do
  let tm ← evaluate evalBatch merge compute train_iter
  let vm ← evaluate evalBatch merge compute valid_iter
  let sm ← evaluate evalBatch merge compute test_iter
  pure (eval_metrics_from tm vm sm)

/-- The keys a split contributes to the merged report. -/
def optKeys {V : Type} (pre : String) : Option (List (String × V)) → List String
  | none => []
  | some m => (dictKeys m).map (fun k => pre ++ k)

theorem string_append_left_cancel {p a b : String} (h : p ++ a = p ++ b) :
    a = b := by
  have h2 := congrArg String.data h
  rw [String.data_append, String.data_append] at h2
  exact String.ext (List.append_cancel_left h2)

theorem train_ne_valid (a b : String) :
    ("train/" ++ a : String) ≠ "valid/" ++ b := by
  intro h
  have h2 := congrArg String.data h
  rw [String.data_append, String.data_append] at h2
  have h3 : ("train/" : String).data = ['t', 'r', 'a', 'i', 'n', '/'] := rfl
  have h4 : ("valid/" : String).data = ['v', 'a', 'l', 'i', 'd', '/'] := rfl
  rw [h3, h4] at h2
  simp at h2

theorem train_ne_test (a b : String) :
    ("train/" ++ a : String) ≠ "test/" ++ b := by
  intro h
  have h2 := congrArg String.data h
  rw [String.data_append, String.data_append] at h2
  have h3 : ("train/" : String).data = ['t', 'r', 'a', 'i', 'n', '/'] := rfl
  have h4 : ("test/" : String).data = ['t', 'e', 's', 't', '/'] := rfl
  rw [h3, h4] at h2
  simp at h2

theorem valid_ne_test (a b : String) :
    ("valid/" ++ a : String) ≠ "test/" ++ b := by
  intro h
  have h2 := congrArg String.data h
  rw [String.data_append, String.data_append] at h2
  have h3 : ("valid/" : String).data = ['v', 'a', 'l', 'i', 'd', '/'] := rfl
  have h4 : ("test/" : String).data = ['t', 'e', 's', 't', '/'] := rfl
  rw [h3, h4] at h2
  simp at h2

theorem dictContains_insert {V : Type} (d : List (String × V)) (k k' : String)
    (v : V) : dictContains (dictInsert d k v) k' = true ↔
      k' = k ∨ dictContains d k' = true := by
  by_cases h : k = k'
  · subst h
    simp [dictContains, dictLookup_insert_self]
  · rw [dictContains, dictLookup_insert_ne d k k' v h]
    simp [dictContains, Ne.symm h]

theorem not_contains_of_not_mem {V : Type} (d : List (String × V)) (k : String)
    (h : k ∉ dictKeys d) : dictContains d k = false := by
  rw [Bool.eq_false_iff]
  intro hc
  exact h ((dictContains_iff_mem_keys d k).mp hc)

theorem keys_merge_and_apply_prefixed {V : Type} (d2 d1 : List (String × V))
    (pre : String) (hnodup : (dictKeys d2).Nodup)
    (hfresh : ∀ k, k ∈ dictKeys d2 → dictContains d1 (pre ++ k) = false) :
    dictKeys (merge_and_apply_prefixed d1 d2 pre) =
      dictKeys d1 ++ (dictKeys d2).map (fun k => pre ++ k) := by
  induction d2 generalizing d1 with
  | nil => simp [merge_and_apply_prefixed, dictKeys]
  | cons hd tl ih =>
      obtain ⟨k0, v0⟩ := hd
      have hstep : merge_and_apply_prefixed d1 ((k0, v0) :: tl) pre =
          merge_and_apply_prefixed (dictInsert d1 (pre ++ k0) v0) tl pre := rfl
      rw [hstep]
      have hk0 : dictContains d1 (pre ++ k0) = false :=
        hfresh k0 (List.mem_cons_self k0 (dictKeys tl))
      have hcons : (k0 :: dictKeys tl).Nodup := by
        simpa [dictKeys] using hnodup
      have hk0mem : k0 ∉ dictKeys tl := (List.nodup_cons.mp hcons).1
      have hnodup' : (dictKeys tl).Nodup := (List.nodup_cons.mp hcons).2
      have hfresh' : ∀ k, k ∈ dictKeys tl →
          dictContains (dictInsert d1 (pre ++ k0) v0) (pre ++ k) = false := by
        intro k hk
        rw [Bool.eq_false_iff]
        intro hcontr
        rcases (dictContains_insert d1 (pre ++ k0) (pre ++ k) v0).mp hcontr
          with he | hc
        · exact hk0mem (string_append_left_cancel he ▸ hk)
        · have hfk : dictContains d1 (pre ++ k) = false :=
            hfresh k (List.mem_cons_of_mem k0 hk)
          rw [hfk] at hc
          cases hc
      rw [ih (dictInsert d1 (pre ++ k0) v0) hnodup' hfresh',
        dictKeys_insert_not_contains d1 (pre ++ k0) v0 hk0]
      simp [dictKeys]

/-- C5: an empty split iterator yields no metrics for that split
(`evaluate` returns `None`, neither zeros nor an error); `eval_metrics`
runs `evaluate` once per split in the order train, valid, test; and the
merged flat report's keys are exactly each non-empty split's metric
keys with `"split/"` prepended, concatenated in that order, so a split
with no metrics contributes no keys at all. -/
theorem eval_metrics_empty_split {B M : Type} (evalBatch : B → M)
    (merge : M → M → M) (compute : M → List (String × MetricVal)) :
    (evaluate evalBatch merge compute ([] : List B) = Except.ok none)
    ∧ (∀ train_iter valid_iter test_iter : List B,
        eval_metrics evalBatch merge compute train_iter valid_iter test_iter =
          (evaluate evalBatch merge compute train_iter).bind (fun tm =>
            (evaluate evalBatch merge compute valid_iter).bind (fun vm =>
              (evaluate evalBatch merge compute test_iter).map (fun sm =>
                eval_metrics_from tm vm sm))))
    ∧ (∀ train_m valid_m test_m : Option (List (String × MetricVal)),
        (∀ m, train_m = some m → (dictKeys m).Nodup) →
        (∀ m, valid_m = some m → (dictKeys m).Nodup) →
        (∀ m, test_m = some m → (dictKeys m).Nodup) →
        dictKeys (eval_metrics_from train_m valid_m test_m) =
          optKeys "train/" train_m ++ optKeys "valid/" valid_m ++
            optKeys "test/" test_m) := by
  refine ⟨rfl, ?_, ?_⟩
  · intro train_iter valid_iter test_iter
    rcases ht : evaluate evalBatch merge compute train_iter with e | tm <;>
      rcases hv : evaluate evalBatch merge compute valid_iter with e' | vm <;>
      rcases hs : evaluate evalBatch merge compute test_iter with e'' | sm <;>
      simp [eval_metrics, ht, hv, hs, Except.map, Except.bind, Bind.bind,
        Except.pure, pure]
  · intro train_m valid_m test_m ht hv hs
    rcases train_m with _ | tm <;> rcases valid_m with _ | vm <;>
      rcases test_m with _ | sm <;>
      simp only [eval_metrics_from, List.foldl, optKeys]
    · rfl
    · rw [keys_merge_and_apply_prefixed sm [] "test/" (hs sm rfl)
        (fun k _ => rfl)]
      simp [dictKeys]
    · rw [keys_merge_and_apply_prefixed vm [] "valid/" (hv vm rfl)
        (fun k _ => rfl)]
      simp [dictKeys]
    · have kV : dictKeys (merge_and_apply_prefixed [] vm "valid/") =
          (dictKeys vm).map (fun k => "valid/" ++ k) := by
        rw [keys_merge_and_apply_prefixed vm [] "valid/" (hv vm rfl)
          (fun k _ => rfl)]
        simp [dictKeys]
      rw [keys_merge_and_apply_prefixed sm (merge_and_apply_prefixed [] vm "valid/")
        "test/" (hs sm rfl) (fun k _ => not_contains_of_not_mem _ _ (by
          rw [kV]
          simp only [List.mem_map, not_exists, not_and]
          intro x _ hx
          exact valid_ne_test x k hx)), kV]
      simp
    · rw [keys_merge_and_apply_prefixed tm [] "train/" (ht tm rfl)
        (fun k _ => rfl)]
      simp [dictKeys]
    · have kT : dictKeys (merge_and_apply_prefixed [] tm "train/") =
          (dictKeys tm).map (fun k => "train/" ++ k) := by
        rw [keys_merge_and_apply_prefixed tm [] "train/" (ht tm rfl)
          (fun k _ => rfl)]
        simp [dictKeys]
      rw [keys_merge_and_apply_prefixed sm (merge_and_apply_prefixed [] tm "train/")
        "test/" (hs sm rfl) (fun k _ => not_contains_of_not_mem _ _ (by
          rw [kT]
          simp only [List.mem_map, not_exists, not_and]
          intro x _ hx
          exact train_ne_test x k hx)), kT]
      simp
    · have kT : dictKeys (merge_and_apply_prefixed [] tm "train/") =
          (dictKeys tm).map (fun k => "train/" ++ k) := by
        rw [keys_merge_and_apply_prefixed tm [] "train/" (ht tm rfl)
          (fun k _ => rfl)]
        simp [dictKeys]
      rw [keys_merge_and_apply_prefixed vm (merge_and_apply_prefixed [] tm "train/")
        "valid/" (hv vm rfl) (fun k _ => not_contains_of_not_mem _ _ (by
          rw [kT]
          simp only [List.mem_map, not_exists, not_and]
          intro x _ hx
          exact train_ne_valid x k hx)), kT]
      simp
    · have kT : dictKeys (merge_and_apply_prefixed [] tm "train/") =
          (dictKeys tm).map (fun k => "train/" ++ k) := by
        rw [keys_merge_and_apply_prefixed tm [] "train/" (ht tm rfl)
          (fun k _ => rfl)]
        simp [dictKeys]
      have kTV : dictKeys (merge_and_apply_prefixed
          (merge_and_apply_prefixed [] tm "train/") vm "valid/") =
          (dictKeys tm).map (fun k => "train/" ++ k) ++
            (dictKeys vm).map (fun k => "valid/" ++ k) := by
        rw [keys_merge_and_apply_prefixed vm (merge_and_apply_prefixed [] tm "train/")
          "valid/" (hv vm rfl) (fun k _ => not_contains_of_not_mem _ _ (by
            rw [kT]
            simp only [List.mem_map, not_exists, not_and]
            intro x _ hx
            exact train_ne_valid x k hx)), kT]
      rw [keys_merge_and_apply_prefixed sm (merge_and_apply_prefixed
          (merge_and_apply_prefixed [] tm "train/") vm "valid/")
        "test/" (hs sm rfl) (fun k _ => not_contains_of_not_mem _ _ (by
          rw [kTV]
          simp only [List.mem_append, List.mem_map, not_or, not_exists, not_and]
          constructor
          · intro x _ hx
            exact train_ne_test x k hx
          · intro x _ hx
            exact valid_ne_test x k hx)), kTV]

/-- Witness for `eval_metrics_empty_split`: a train split with one
metric, an empty valid split, a test split with one metric; the report
holds exactly the prefixed train and test keys and nothing for valid. -/
theorem eval_metrics_empty_split_witness :
    (evaluate (fun _ : ℕ => [("loss", (some 1 : MetricVal))]) (fun a _ => a) id
      ([] : List ℕ) = Except.ok none)
    ∧ dictKeys (eval_metrics_from (some [("loss", (some 1 : MetricVal))]) none
        (some [("err", (some 2 : MetricVal))])) =
      optKeys "train/" (some [("loss", (some 1 : MetricVal))]) ++
        optKeys "valid/" (none : Option (List (String × MetricVal))) ++
        optKeys "test/" (some [("err", (some 2 : MetricVal))]) :=
  ⟨(eval_metrics_empty_split (fun _ : ℕ => [("loss", (some 1 : MetricVal))])
      (fun a _ => a) id).1,
    (eval_metrics_empty_split (fun _ : ℕ => [("loss", (some 1 : MetricVal))])
      (fun a _ => a) id).2.2 (some [("loss", some 1)]) none
      (some [("err", some 2)])
      (fun m hm => by cases hm; decide)
      (fun m hm => by cases hm)
      (fun m hm => by cases hm; decide)⟩

/-! ## Multi-host report gathering (`gather_multihost_report`,
trainer_per_host.py, lines 45-64)

`process_allgather` turns every scalar report entry into the per-host
array of its values; the loop then relabels each metric `m` under the
string keys `m-i` and overwrites the canonical key `m` with the entry
of the designated expert.  Dictionary values are `Sum.inl` for a
gathered per-host array and `Sum.inr` for an extracted scalar
(`.item()`).  `hostVals m i` is host `i`'s value of metric `m`.
Crucially, each iteration reads `all_reports[metric]` from the dict as
already mutated by the earlier iterations: if an earlier iteration
overwrote that entry with an extracted scalar (a Python float),
`enumerate` over it raises a `TypeError`; raised exceptions are
embedded as `Except.error`. -/

abbrev GatherVal : Type := List ℚ ⊕ ℚ

def hostKey (m : String) (i : ℕ) : String := m ++ "-" ++ toString i

def hostList (n : ℕ) (hostVals : String → ℕ → ℚ) (m : String) : List ℚ :=
  (List.range n).map (hostVals m)

/-- One iteration of the `for metric in report.keys()` loop: read the
current entry of `m` (a `KeyError` if absent, a `TypeError` if it is no
longer an array), insert `m-i` mapsto `xs[i].item()` for each index `i`
of the array in order, then overwrite `m` with the entry of
`m-current_expert` (a `KeyError` if that key is absent). -/
def gatherStep (e : ℕ) (d : List (String × GatherVal)) (m : String) :
    Except String (List (String × GatherVal)) :=
  match dictLookup d m with
  | none => Except.error "KeyError"
  | some (Sum.inr _) => Except.error "TypeError: float object is not iterable"
  | some (Sum.inl xs) =>
      let d1 := (List.range xs.length).foldl
        (fun acc i => dictInsert acc (hostKey m i) (Sum.inr (xs.getD i 0))) d
      match dictLookup d1 (hostKey m e) with
      | some v => Except.ok (dictInsert d1 m v)
      | none => Except.error "KeyError"

def gatherLoop (e : ℕ) :
    List (String × GatherVal) → List String →
      Except String (List (String × GatherVal))
  | d, [] => Except.ok d
  | d, m :: rest =>
      match gatherStep e d m with
      | Except.ok d' => gatherLoop e d' rest
      | Except.error err => Except.error err

def gather_multihost_report (n e : ℕ) (hostVals : String → ℕ → ℚ)
    (reportKeys : List String) :
    Except String (List (String × GatherVal)) :=
  gatherLoop e (reportKeys.map (fun m => (m, Sum.inl (hostList n hostVals m))))
    reportKeys

theorem lookup_foldl_inserts_hit {V : Type} (keyF : ℕ → String) (valF : ℕ → V)
    (d : List (String × V)) (n i : ℕ) (hi : i < n)
    (hinj : ∀ a b, a < n → b < n → keyF a = keyF b → a = b) :
    dictLookup ((List.range n).foldl
      (fun acc j => dictInsert acc (keyF j) (valF j)) d) (keyF i) =
      some (valF i) := by
  induction n with
  | zero => omega
  | succ m ih =>
      rw [List.range_succ, List.foldl_append]
      simp only [List.foldl]
      rcases Nat.lt_or_ge i m with hm | hm
      · have hne : keyF m ≠ keyF i := fun he => by
          have := hinj m i (by omega) (by omega) he
          omega
        rw [dictLookup_insert_ne _ _ _ _ hne]
        exact ih hm (fun a b ha hb hab => hinj a b (by omega) (by omega) hab)
      · have him : i = m := by omega
        subst him
        exact dictLookup_insert_self _ _ _

theorem lookup_foldl_inserts_miss {V : Type} (keyF : ℕ → String) (valF : ℕ → V)
    (d : List (String × V)) (n : ℕ) (k : String)
    (hmiss : ∀ j, j < n → keyF j ≠ k) :
    dictLookup ((List.range n).foldl
      (fun acc j => dictInsert acc (keyF j) (valF j)) d) k = dictLookup d k := by
  induction n with
  | zero => simp
  | succ m ih =>
      rw [List.range_succ, List.foldl_append]
      simp only [List.foldl]
      rw [dictLookup_insert_ne _ _ _ _ (hmiss m (by omega))]
      exact ih (fun j hj => hmiss j (by omega))

theorem hostList_length (n : ℕ) (hv : String → ℕ → ℚ) (m : String) :
    (hostList n hv m).length = n := by
  simp [hostList]

theorem hostList_getD (n : ℕ) (hv : String → ℕ → ℚ) (m : String) (i : ℕ)
    (hi : i < n) : (hostList n hv m).getD i 0 = hv m i := by
  rw [hostList, List.getD_eq_getElem _ _ (by simpa using hi), List.getElem_map,
    List.getElem_range]

theorem dictLookup_map_self {V : Type} (f : String → V) (ks : List String)
    (m : String) (hm : m ∈ ks) :
    dictLookup (ks.map (fun m' => (m', f m'))) m = some (f m) := by
  induction ks with
  | nil => cases hm
  | cons k0 tl ih =>
      by_cases h : k0 = m
      · subst h
        simp [dictLookup]
      · have hmtl : m ∈ tl := by
          rcases List.mem_cons.mp hm with h' | h'
        <;> first
          | exact absurd h'.symm h
          | exact h'
        simp only [List.map, dictLookup, if_neg h]
        exact ih hmtl

/-- When the entry of `m` still holds its gathered array, the iteration
succeeds and produces the expected insertions. -/
theorem gatherStep_ok (n e : ℕ) (hv : String → ℕ → ℚ)
    (d : List (String × GatherVal)) (m : String) (he : e < n)
    (hd : dictLookup d m = some (Sum.inl (hostList n hv m)))
    (hinjm : ∀ a b, a < n → b < n → hostKey m a = hostKey m b → a = b) :
    gatherStep e d m = Except.ok (dictInsert
      ((List.range n).foldl
        (fun acc i => dictInsert acc (hostKey m i) (Sum.inr (hv m i))) d)
      m (Sum.inr (hv m e))) := by
  have hfold : (List.range (hostList n hv m).length).foldl
      (fun acc i => dictInsert acc (hostKey m i)
        (Sum.inr ((hostList n hv m).getD i 0))) d =
      (List.range n).foldl
        (fun acc i => dictInsert acc (hostKey m i) (Sum.inr (hv m i))) d := by
    rw [hostList_length]
    apply List.foldl_ext
    intro acc i hi
    rw [hostList_getD n hv m i (List.mem_range.mp hi)]
  have hhit : dictLookup ((List.range n).foldl
      (fun acc i => dictInsert acc (hostKey m i) (Sum.inr (hv m i))) d)
      (hostKey m e) = some (Sum.inr (hv m e)) :=
    lookup_foldl_inserts_hit _ _ d n e he hinjm
  simp only [gatherStep, hd, hfold, hhit]

/-- The gather loop over a collision-free suffix of metrics: it
succeeds, leaves untouched keys unchanged, and establishes the per-host
and canonical entries for every metric of the suffix. -/
theorem gatherLoop_correct (n e : ℕ) (hv : String → ℕ → ℚ)
    (ks : List String) (he : e < n) (hnodup : ks.Nodup)
    (hsep : ∀ m, m ∈ ks → ∀ m', m' ∈ ks → ∀ i, i < n → hostKey m i ≠ m')
    (hinj : ∀ m, m ∈ ks → ∀ m', m' ∈ ks → ∀ i, i < n → ∀ j, j < n →
      hostKey m i = hostKey m' j → m = m' ∧ i = j) :
    ∀ d, (∀ m, m ∈ ks → dictLookup d m = some (Sum.inl (hostList n hv m))) →
    ∃ d', gatherLoop e d ks = Except.ok d'
      ∧ (∀ k, (∀ m', m' ∈ ks → (∀ i, i < n → hostKey m' i ≠ k) ∧ m' ≠ k) →
          dictLookup d' k = dictLookup d k)
      ∧ (∀ m, m ∈ ks →
          (∀ i, i < n →
            dictLookup d' (hostKey m i) = some (Sum.inr (hv m i)))
          ∧ dictLookup d' m = some (Sum.inr (hv m e))) := by
  induction ks with
  | nil =>
      intro d _
      exact ⟨d, rfl, fun k _ => rfl, fun m hm => absurd hm (List.not_mem_nil m)⟩
  | cons m0 tl ih =>
      intro d hd
      have hm0 : m0 ∈ m0 :: tl := List.mem_cons_self m0 tl
      have hm0tl : m0 ∉ tl := (List.nodup_cons.mp hnodup).1
      have hnodup' : tl.Nodup := (List.nodup_cons.mp hnodup).2
      have hinjm : ∀ a b, a < n → b < n → hostKey m0 a = hostKey m0 b → a = b :=
        fun a b ha hb hab => (hinj m0 hm0 m0 hm0 a ha b hb hab).2
      have hstep := gatherStep_ok n e hv d m0 he (hd m0 hm0) hinjm
      set dfold := (List.range n).foldl
        (fun acc i => dictInsert acc (hostKey m0 i) (Sum.inr (hv m0 i))) d with hdfold
      set d2 := dictInsert dfold m0 (Sum.inr (hv m0 e)) with hd2def
      have hd2 : ∀ m, m ∈ tl → dictLookup d2 m = some (Sum.inl (hostList n hv m)) := by
        intro m hm
        have hm0m : m0 ≠ m := fun hcon => hm0tl (hcon ▸ hm)
        rw [hd2def, dictLookup_insert_ne _ _ _ _ hm0m, hdfold,
          lookup_foldl_inserts_miss _ _ d n m
            (fun j hj => hsep m0 hm0 m (List.mem_cons_of_mem m0 hm) j hj)]
        exact hd m (List.mem_cons_of_mem m0 hm)
      have hsep' : ∀ m, m ∈ tl → ∀ m', m' ∈ tl → ∀ i, i < n →
          hostKey m i ≠ m' := fun m hm m' hm' i hi =>
        hsep m (List.mem_cons_of_mem m0 hm) m' (List.mem_cons_of_mem m0 hm') i hi
      have hinj' : ∀ m, m ∈ tl → ∀ m', m' ∈ tl → ∀ i, i < n → ∀ j, j < n →
          hostKey m i = hostKey m' j → m = m' ∧ i = j :=
        fun m hm m' hm' i hi j hj =>
        hinj m (List.mem_cons_of_mem m0 hm) m' (List.mem_cons_of_mem m0 hm') i hi j hj
      obtain ⟨d', hok, hpres, hmem⟩ := ih hnodup' hsep' hinj' d2 hd2
      refine ⟨d', ?_, ?_, ?_⟩
      · simp only [gatherLoop, hstep]
        exact hok
      · intro k hk
        rw [hpres k (fun m' hm' => hk m' (List.mem_cons_of_mem m0 hm')),
          hd2def, dictLookup_insert_ne _ _ _ _ (hk m0 hm0).2, hdfold,
          lookup_foldl_inserts_miss _ _ d n k (hk m0 hm0).1]
      · intro m hm
        rcases List.mem_cons.mp hm with rfl | hmtl
        · constructor
          · intro i hi
            have huntouched : ∀ m', m' ∈ tl →
                (∀ a, a < n → hostKey m' a ≠ hostKey m i) ∧ m' ≠ hostKey m i := by
              intro m' hm'
              refine ⟨?_, ?_⟩
              · intro a ha hak
                have := hinj m' (List.mem_cons_of_mem m hm') m hm0 a ha i hi hak
                exact hm0tl (this.1 ▸ hm')
              · intro hm'k
                exact hsep m hm0 m' (List.mem_cons_of_mem m hm') i hi hm'k.symm
            rw [hpres (hostKey m i) huntouched, hd2def,
              dictLookup_insert_ne _ _ _ _
                (fun hme => hsep m hm0 m hm0 i hi hme.symm), hdfold]
            exact lookup_foldl_inserts_hit _ _ d n i hi hinjm
          · have huntouched : ∀ m', m' ∈ tl →
                (∀ a, a < n → hostKey m' a ≠ m) ∧ m' ≠ m := by
              intro m' hm'
              refine ⟨?_, ?_⟩
              · intro a ha hak
                exact hsep m' (List.mem_cons_of_mem m hm') m hm0 a ha hak
              · intro hm'k
                exact hm0tl (hm'k ▸ hm')
            rw [hpres m huntouched, hd2def, dictLookup_insert_self]
        · exact hmem m hmtl

/-- C6 counterexample: with a single host, expert index 0, and a report
whose metric names are `a` and `a-0` in that order, the first loop
iteration (metric `a`) overwrites the entry of the metric named `a-0`
with an extracted scalar; the second iteration then reads the mutated
dict and iterates over that float, so `gather_multihost_report` raises
a `TypeError` and returns no mapping at all — in particular no mapping
containing, for each metric and host, the claimed per-host keys. -/
theorem gather_multihost_report_counterexample :
    gather_multihost_report 1 0 (fun m _ => if m = "a" then (1 : ℚ) else 2)
      ["a", "a-0"] =
      Except.error "TypeError: float object is not iterable" := by
  rfl

/-- C6 amended: for every report whose metric names are pairwise
distinct and do not collide with any per-host relabeled key `m-i`
(the relabeled keys themselves being pairwise distinct across metrics
and host indices), and every expert index `e` that is a valid host
index, `gather_multihost_report` returns successfully, and the returned
mapping contains, for each metric `m` and host `i`, the key `m-i`
holding host `i`'s value of `m`, while the canonical key `m` holds
exactly host `e`'s value of `m` (the value of `m-e`). -/
theorem gather_multihost_report_amended (n e : ℕ) (hv : String → ℕ → ℚ)
    (reportKeys : List String) (he : e < n) (hnodup : reportKeys.Nodup)
    (hsep : ∀ m, m ∈ reportKeys → ∀ m', m' ∈ reportKeys → ∀ i, i < n →
      hostKey m i ≠ m')
    (hinj : ∀ m, m ∈ reportKeys → ∀ m', m' ∈ reportKeys → ∀ i, i < n →
      ∀ j, j < n → hostKey m i = hostKey m' j → m = m' ∧ i = j) :
    ∃ d', gather_multihost_report n e hv reportKeys = Except.ok d'
      ∧ ∀ m, m ∈ reportKeys →
          (∀ i, i < n →
            dictLookup d' (hostKey m i) = some (Sum.inr (hv m i)))
          ∧ dictLookup d' m = some (Sum.inr (hv m e)) := by
  obtain ⟨d', hok, _, hmem⟩ := gatherLoop_correct n e hv reportKeys he hnodup
    hsep hinj (reportKeys.map (fun m' => (m', Sum.inl (hostList n hv m'))))
    (fun m hm => dictLookup_map_self (fun m' => Sum.inl (hostList n hv m'))
      reportKeys m hm)
  exact ⟨d', hok, hmem⟩

/-- Witness for `gather_multihost_report_amended`: two hosts, expert 1,
one metric `loss` whose per-host values are 0 and 1. -/
theorem gather_multihost_report_amended_witness :
    ∃ d', gather_multihost_report 2 1 (fun _ i => (i : ℚ)) ["loss"] =
        Except.ok d'
      ∧ dictLookup d' (hostKey "loss" 0) = some (Sum.inr 0)
      ∧ dictLookup d' "loss" = some (Sum.inr 1) := by
  obtain ⟨d', hok, hmem⟩ := gather_multihost_report_amended 2 1
    (fun _ i => (i : ℚ)) ["loss"] (by decide) (by decide) (by decide) (by decide)
  refine ⟨d', hok, ?_, ?_⟩
  · simpa using (hmem "loss" (by simp)).1 0 (by decide)
  · simpa using (hmem "loss" (by simp)).2


/-! ## The per-step update and gradient clipping (`update`,
trainer_per_host.py, lines 276-321)

Gradient trees are embedded as their flattened list of real scalars
(all the operations involved — clipping, norms, elementwise update —
act leafwise and elementwise).  `sumSq` is modelled from the spec:
`model_utils.l2_regularization(grad, 0)` lives in model_lib, outside
src/; per the spec (step 5) `grad_norm` is the L2 norm of the full
gradient tree treated as one flattened vector, so the helper returns
the sum of squared entries.  The training-cost differentiation
(`jax.value_and_grad` over the caller-supplied `training_cost`) is the
caller-supplied parameter `grad_fn`; the rng folding, the
learning-rate/train-loss injection (verified separately) and the
batch-stats threading are orthogonal to the claims and omitted; the
within-host pmean (verified in `axis_index_groups_per_host`) is the
identity in this single-device embedding, per-device groups of size
one. -/

noncomputable def GRAD_CLIP_EPS : ℝ := 1 / 1000000

noncomputable def sumSq (xs : List ℝ) : ℝ := (xs.map (fun x => x ^ 2)).sum

noncomputable def gradNormOf (grad : List ℝ) : ℝ := Real.sqrt (sumSq grad)

/-- Lines 297-301: with a configured (non-None, non-zero) threshold,
rescale every entry by `grad_clip / (grad_norm + eps)` when the norm
exceeds the threshold, else keep the gradient unchanged. -/
noncomputable def clippedGrad (grad_clip : Option ℝ) (grad_norm : ℝ) (grad : List ℝ) :
    List ℝ :=
  match grad_clip with
  | none => grad
  | some t =>
      if t = 0 then grad
      else if grad_norm > t then
        grad.map (fun x => x / (grad_norm + GRAD_CLIP_EPS) * t)
      else grad

structure UpdateResult (A M : Type) where
  new_optimizer_state : A
  new_params : List ℝ
  cost : ℝ
  new_metrics_state : Option M
  grad_norm : ℝ

/-- The per-step `update`: differentiate the cost, take the norm, clip,
run the optimizer update, apply the updates, then update the metrics
state (if configured) with the gradient variable as it stands after the
clipping conditional. -/
noncomputable def update {A M : Type} (grad_fn : List ℝ → ℝ × List ℝ)
    (grad_clip : Option ℝ) (optimizer_update_fn : List ℝ → A → List ℝ × A)
    (metrics_update_fn : M → List ℝ → List ℝ → List ℝ → M)
    (optimizer_state : A) (params : List ℝ) (metrics_state : Option M) :
    UpdateResult A M :=
  let cg := grad_fn params
  let grad_norm := Real.sqrt (sumSq cg.2)
  let grad := clippedGrad grad_clip grad_norm cg.2
  let mu := optimizer_update_fn grad optimizer_state
  let new_params := List.zipWith (fun p u => p + u) params mu.1
  { new_optimizer_state := mu.2
    new_params := new_params
    cost := cg.1
    new_metrics_state :=
      metrics_state.map (fun ms => metrics_update_fn ms grad params new_params)
    grad_norm := grad_norm }

theorem sumSq_nonneg (xs : List ℝ) : 0 ≤ sumSq xs := by
  apply List.sum_nonneg
  intro x hx
  obtain ⟨y, _, rfl⟩ := List.mem_map.mp hx
  positivity

theorem sumSq_map_mul (c : ℝ) (xs : List ℝ) :
    sumSq (xs.map (fun x => x * c)) = c ^ 2 * sumSq xs := by
  induction xs with
  | nil => simp [sumSq]
  | cons x tl ih =>
      simp only [sumSq, List.map_cons, List.sum_cons] at ih ⊢
      rw [ih]
      ring

/-- C2: with a configured positive clip threshold `t` and gradient norm
`g`: if `g ≤ t` the clipped gradient is the original, exactly; if
`g > t` every entry is rescaled by the single scalar `t / (g + eps)`
with `eps = 1e-6`, so the clipped tree is a uniform scalar multiple of
the original and its norm is `t * g / (g + eps)`, i.e. the threshold up
to the `eps` perturbation. -/
theorem grad_clipping_correct (t : ℝ) (grad : List ℝ) (ht : 0 < t) :
    (gradNormOf grad ≤ t →
      clippedGrad (some t) (gradNormOf grad) grad = grad)
    ∧ (gradNormOf grad > t →
        clippedGrad (some t) (gradNormOf grad) grad =
          grad.map (fun x => x * (t / (gradNormOf grad + GRAD_CLIP_EPS)))
        ∧ gradNormOf (clippedGrad (some t) (gradNormOf grad) grad) =
            t * gradNormOf grad / (gradNormOf grad + GRAD_CLIP_EPS)) := by
  have hg0 : 0 ≤ gradNormOf grad := Real.sqrt_nonneg _
  have hd0 : 0 < gradNormOf grad + GRAD_CLIP_EPS := by
    have : (0 : ℝ) < GRAD_CLIP_EPS := by norm_num [GRAD_CLIP_EPS]
    linarith
  constructor
  · intro hle
    simp only [clippedGrad, if_neg ht.ne', if_neg (not_lt.mpr hle)]
  · intro hgt
    have hform : clippedGrad (some t) (gradNormOf grad) grad =
        grad.map (fun x => x * (t / (gradNormOf grad + GRAD_CLIP_EPS))) := by
      simp only [clippedGrad, if_neg ht.ne', if_pos hgt]
      apply List.map_congr_left
      intro x _
      field_simp
    refine ⟨hform, ?_⟩
    rw [hform, gradNormOf, sumSq_map_mul, Real.sqrt_mul (by positivity),
      Real.sqrt_sq (by positivity)]
    rw [gradNormOf] at *
    field_simp

/-- Witness for `grad_clipping_correct`: the gradient `[3, 4]` has norm
5; with threshold 6 clipping is the identity, with threshold 3 every
entry is scaled by `3 / (5 + eps)` and the norm becomes
`3 * 5 / (5 + eps)`. -/
theorem grad_clipping_correct_witness :
    (clippedGrad (some 6) (gradNormOf [3, 4]) [3, 4] = [(3 : ℝ), 4])
    ∧ (clippedGrad (some 3) (gradNormOf [3, 4]) [3, 4] =
        ([3, 4] : List ℝ).map (fun x => x * (3 / (gradNormOf [3, 4] + GRAD_CLIP_EPS)))
      ∧ gradNormOf (clippedGrad (some 3) (gradNormOf [3, 4]) [3, 4]) =
        3 * gradNormOf [3, 4] / (gradNormOf [3, 4] + GRAD_CLIP_EPS)) := by
  have hs : sumSq [(3 : ℝ), 4] = 25 := by
    simp [sumSq]
    norm_num
  have h5 : gradNormOf [(3 : ℝ), 4] = 5 := by
    rw [gradNormOf, hs, show (25 : ℝ) = 5 ^ 2 by norm_num]
    exact Real.sqrt_sq (by norm_num)
  constructor
  · exact (grad_clipping_correct 6 [3, 4] (by norm_num)).1 (by rw [h5]; norm_num)
  · exact (grad_clipping_correct 3 [3, 4] (by norm_num)).2 (by rw [h5]; norm_num)

/-- C1 counterexample: one leaf gradient `[30]`, clip threshold 3
(configured and triggered, since the norm 30 exceeds 3), with a metrics
update function that records the gradient it receives.  The recorded
gradient is not the unclipped original `[30]`: the code reassigns
`grad` to the clipped gradient before calling `metrics_update_fn`, so
the metrics accumulator sees `[30 / (30 + eps) * 3]`. -/
theorem update_metrics_unclipped_counterexample :
    gradNormOf [(30 : ℝ)] > 3
    ∧ (update (fun _ => ((0 : ℝ), [(30 : ℝ)])) (some 3)
        (fun _ a => ([(0 : ℝ)], a)) (fun _ g _ _ => g) () [(0 : ℝ)]
        (some ([] : List ℝ))).new_metrics_state ≠ some [(30 : ℝ)] := by
  have hs : sumSq [(30 : ℝ)] = 900 := by
    simp [sumSq]
    norm_num
  have h30 : gradNormOf [(30 : ℝ)] = 30 := by
    rw [gradNormOf, hs, show (900 : ℝ) = 30 ^ 2 by norm_num]
    exact Real.sqrt_sq (by norm_num)
  refine ⟨by rw [h30]; norm_num, ?_⟩
  have hbase : (update (fun _ => ((0 : ℝ), [(30 : ℝ)])) (some 3)
      (fun _ a => ([(0 : ℝ)], a)) (fun _ g _ _ => g) () [(0 : ℝ)]
      (some ([] : List ℝ))).new_metrics_state =
      some (clippedGrad (some 3) (gradNormOf [(30 : ℝ)]) [(30 : ℝ)]) := rfl
  have hclip : clippedGrad (some 3) (gradNormOf [(30 : ℝ)]) [(30 : ℝ)] =
      [(30 : ℝ) / (30 + GRAD_CLIP_EPS) * 3] := by
    rw [h30]
    simp only [clippedGrad, if_neg (show (3 : ℝ) ≠ 0 by norm_num),
      if_pos (show (30 : ℝ) > 3 by norm_num)]
    rfl
  rw [hbase, hclip]
  intro hcontr
  have h2 := Option.some_inj.mp hcontr
  have h1 : (30 : ℝ) / (30 + GRAD_CLIP_EPS) * 3 = 30 := by
    simpa using congrArg (fun l => l.getD 0 0) h2
  rw [GRAD_CLIP_EPS] at h1
  norm_num at h1

/-- C1 amended: whenever gradient clipping is configured with a
positive threshold and triggered, the metrics accumulator's update
function is called with the clipped gradient — the same gradient
passed to the optimizer, namely the original rescaled by
`t / (grad_norm + eps)` — together with the old params and the new
params (not with the unclipped original gradient). -/
theorem update_metrics_gets_clipped_grad {A M : Type}
    (grad_fn : List ℝ → ℝ × List ℝ) (t : ℝ)
    (optimizer_update_fn : List ℝ → A → List ℝ × A)
    (metrics_update_fn : M → List ℝ → List ℝ → List ℝ → M)
    (optimizer_state : A) (params : List ℝ) (ms : M) (ht : 0 < t)
    (htrig : gradNormOf (grad_fn params).2 > t) :
    (update grad_fn (some t) optimizer_update_fn metrics_update_fn
      optimizer_state params (some ms)).new_metrics_state =
      some (metrics_update_fn ms
        ((grad_fn params).2.map (fun x =>
          x / (gradNormOf (grad_fn params).2 + GRAD_CLIP_EPS) * t))
        params
        (update grad_fn (some t) optimizer_update_fn metrics_update_fn
          optimizer_state params (some ms)).new_params) := by
  have hbase : (update grad_fn (some t) optimizer_update_fn metrics_update_fn
      optimizer_state params (some ms)).new_metrics_state =
      some (metrics_update_fn ms
        (clippedGrad (some t) (gradNormOf (grad_fn params).2) (grad_fn params).2)
        params
        (update grad_fn (some t) optimizer_update_fn metrics_update_fn
          optimizer_state params (some ms)).new_params) := rfl
  have hclip : clippedGrad (some t) (gradNormOf (grad_fn params).2)
      (grad_fn params).2 =
      (grad_fn params).2.map (fun x =>
        x / (gradNormOf (grad_fn params).2 + GRAD_CLIP_EPS) * t) := by
    simp only [clippedGrad, if_neg ht.ne', if_pos htrig]
  rw [hbase, hclip]

/-- Witness for `update_metrics_gets_clipped_grad`: the counterexample
configuration, where the recorded gradient is the rescaled `[30]`. -/
theorem update_metrics_gets_clipped_grad_witness :
    (update (fun _ => ((0 : ℝ), [(30 : ℝ)])) (some 3)
      (fun _ a => ([(0 : ℝ)], a)) (fun _ g _ _ => g) () [(0 : ℝ)]
      (some ([] : List ℝ))).new_metrics_state =
      some ([(30 : ℝ)].map (fun x =>
        x / (gradNormOf [(30 : ℝ)] + GRAD_CLIP_EPS) * 3)) := by
  have hs : sumSq [(30 : ℝ)] = 900 := by
    simp [sumSq]
    norm_num
  have h30 : gradNormOf [(30 : ℝ)] = 30 := by
    rw [gradNormOf, hs, show (900 : ℝ) = 30 ^ 2 by norm_num]
    exact Real.sqrt_sq (by norm_num)
  exact update_metrics_gets_clipped_grad (fun _ => ((0 : ℝ), [(30 : ℝ)])) 3
    (fun _ a => ([(0 : ℝ)], a)) (fun _ g _ _ => g) () [(0 : ℝ)] []
    (by norm_num) (by rw [h30]; norm_num)

/-! ## Training metrics grabber (`training_metrics_grabber.py`)

A parameter leaf is a flattened list of reals.  `_MetricsLeafState`
carries the five per-leaf statistics; `update_param_stats` embeds
`_update_param_stats` (lines 37-69), `node_init` embeds the
`_node_init` closure of `TrainingMetricsGrabber.create` (zeros, with
`param_norm = 0.0`), and `grabber_update` embeds the per-leaf
computation of `TrainingMetricsGrabber.update` (lines 123-154), which
passes `update = new_param - old_param`. -/

structure MetricsLeafState where
  grad_ema : List ℝ
  grad_sq_ema : List ℝ
  param_norm : ℝ
  update_ema : List ℝ
  update_sq_ema : List ℝ

/-- `ema' = beta * ema + (1 - beta) * value`, elementwise. -/
noncomputable def emaList (ema_beta : ℝ) (ema v : List ℝ) : List ℝ :=
  List.zipWith (fun e x => ema_beta * e + (1 - ema_beta) * x) ema v

noncomputable def update_param_stats (leaf_state : MetricsLeafState)
    (param_gradient upd new_param : List ℝ) (ema_beta : ℝ) :
    MetricsLeafState :=
  { grad_sq_ema := emaList ema_beta leaf_state.grad_sq_ema
      (param_gradient.map (fun x => x ^ 2))
    grad_ema := emaList ema_beta leaf_state.grad_ema param_gradient
    update_ema := emaList ema_beta leaf_state.update_ema upd
    update_sq_ema := emaList ema_beta leaf_state.update_sq_ema
      (upd.map (fun x => x ^ 2))
    param_norm := Real.sqrt (sumSq new_param) }

noncomputable def node_init (L : ℕ) : MetricsLeafState :=
  { grad_ema := List.replicate L 0
    grad_sq_ema := List.replicate L 0
    param_norm := 0
    update_ema := List.replicate L 0
    update_sq_ema := List.replicate L 0 }

noncomputable def grabber_update (s : MetricsLeafState) (ema_beta : ℝ)
    (model_gradient old_params new_params : List ℝ) : MetricsLeafState :=
  update_param_stats s model_gradient
    (List.zipWith (fun a b => a - b) new_params old_params) new_params ema_beta

/-- Applying `TrainingMetricsGrabber.update` once per step over a
sequence of `(gradient, old_params, new_params)` triples. -/
noncomputable def grabber_apply (ema_beta : ℝ) (s : MetricsLeafState)
    (steps : List (List ℝ × List ℝ × List ℝ)) : MetricsLeafState :=
  steps.foldl (fun acc st => grabber_update acc ema_beta st.1 st.2.1 st.2.2) s

theorem ema_foldl_closed_form (ema_beta : ℝ) (gs : List ℝ) :
    gs.foldl (fun e g => ema_beta * e + (1 - ema_beta) * g) 0 =
      (1 - ema_beta) * ∑ i ∈ Finset.range gs.length,
        ema_beta ^ i * gs.getD (gs.length - 1 - i) 0 := by
  induction gs using List.reverseRecOn with
  | nil => simp
  | append_singleton gs g ih =>
      rw [List.foldl_append]
      simp only [List.foldl]
      rw [ih, List.length_append, List.length_singleton]
      have hsum : ∑ i ∈ Finset.range (gs.length + 1),
          ema_beta ^ i * (gs ++ [g]).getD (gs.length + 1 - 1 - i) 0 =
          (∑ i ∈ Finset.range gs.length,
            ema_beta ^ (i + 1) * gs.getD (gs.length - 1 - i) 0) + g := by
        rw [Finset.sum_range_succ']
        congr 1
        · apply Finset.sum_congr rfl
          intro i hi
          have hi' : i < gs.length := Finset.mem_range.mp hi
          have hidx : gs.length + 1 - 1 - (i + 1) = gs.length - 1 - i := by
            omega
          rw [hidx, List.getD_append _ _ _ _ (by omega)]
        · simp
      rw [hsum]
      have hfac : ∑ i ∈ Finset.range gs.length,
          ema_beta ^ (i + 1) * gs.getD (gs.length - 1 - i) 0 =
          ema_beta * ∑ i ∈ Finset.range gs.length,
            ema_beta ^ i * gs.getD (gs.length - 1 - i) 0 := by
        rw [Finset.mul_sum]
        apply Finset.sum_congr rfl
        intro i _
        ring
      rw [hfac]
      ring

theorem emaList_length (ema_beta : ℝ) (e v : List ℝ) :
    (emaList ema_beta e v).length = min e.length v.length := by
  simp [emaList]

theorem emaList_getD (ema_beta : ℝ) (e v : List ℝ) (j : ℕ) (hj : j < e.length)
    (hv : j < v.length) :
    (emaList ema_beta e v).getD j 0 =
      ema_beta * e.getD j 0 + (1 - ema_beta) * v.getD j 0 := by
  rw [emaList, List.getD_eq_getElem _ _ (by simp [List.length_zipWith]; omega),
    List.getD_eq_getElem _ _ hj, List.getD_eq_getElem _ _ hv,
    List.getElem_zipWith]

theorem grabber_apply_grad_ema (ema_beta : ℝ) (s : MetricsLeafState)
    (steps : List (List ℝ × List ℝ × List ℝ)) :
    (grabber_apply ema_beta s steps).grad_ema =
      (steps.map (fun st => st.1)).foldl (emaList ema_beta) s.grad_ema := by
  induction steps generalizing s with
  | nil => rfl
  | cons st tl ih =>
      simp only [grabber_apply, List.foldl, List.map] at ih ⊢
      rw [ih]
      rfl

theorem foldl_emaList_getD (ema_beta : ℝ) (gs : List (List ℝ)) (L : ℕ)
    (init : List ℝ) (hinit : init.length = L) (hlen : ∀ g ∈ gs, g.length = L)
    (j : ℕ) (hj : j < L) :
    (gs.foldl (emaList ema_beta) init).getD j 0 =
      (gs.map (fun g => g.getD j 0)).foldl
        (fun e x => ema_beta * e + (1 - ema_beta) * x) (init.getD j 0) := by
  induction gs generalizing init with
  | nil => rfl
  | cons g tl ih =>
      simp only [List.foldl, List.map]
      have hg : g.length = L := hlen g (List.mem_cons_self g tl)
      have hstep : (emaList ema_beta init g).length = L := by
        rw [emaList_length]
        omega
      rw [ih (emaList ema_beta init g) hstep
        (fun g' hg' => hlen g' (List.mem_cons_of_mem g hg')),
        emaList_getD ema_beta init g j (by omega) (by omega)]

/-- C3: starting from the zero-initialized accumulator of
`TrainingMetricsGrabber.create`, N applications of the grabber's
`update` leave, in each component of each leaf, a `grad_ema` equal to
the closed form `(1-beta) * sum_i beta^i * grad_(N-1-i)`; moreover each
single step updates the four EMA fields by
`ema' = beta*ema + (1-beta)*value` with value = gradient, squared
gradient, update = new_param - old_param, squared update, and sets
`param_norm` to the Euclidean norm of the flattened new parameter
(characterized as the nonnegative real whose square is the sum of
squares). -/
theorem metrics_grabber_ema_closed_form (ema_beta : ℝ)
    (hbeta : 0 ≤ ema_beta ∧ ema_beta < 1) (L : ℕ)
    (steps : List (List ℝ × List ℝ × List ℝ))
    (hg : ∀ st ∈ steps, st.1.length = L) (j : ℕ) (hj : j < L) :
    ((grabber_apply ema_beta (node_init L) steps).grad_ema.getD j 0 =
      (1 - ema_beta) * ∑ i ∈ Finset.range steps.length,
        ema_beta ^ i *
          (steps.getD (steps.length - 1 - i) ([], [], [])).1.getD j 0)
    ∧ (∀ (s : MetricsLeafState) (g po pn : List ℝ),
        (grabber_update s ema_beta g po pn).grad_ema =
          emaList ema_beta s.grad_ema g
        ∧ (grabber_update s ema_beta g po pn).grad_sq_ema =
          emaList ema_beta s.grad_sq_ema (g.map (fun x => x ^ 2))
        ∧ (grabber_update s ema_beta g po pn).update_ema =
          emaList ema_beta s.update_ema
            (List.zipWith (fun a b => a - b) pn po)
        ∧ (grabber_update s ema_beta g po pn).update_sq_ema =
          emaList ema_beta s.update_sq_ema
            ((List.zipWith (fun a b => a - b) pn po).map (fun x => x ^ 2))
        ∧ 0 ≤ (grabber_update s ema_beta g po pn).param_norm
        ∧ (grabber_update s ema_beta g po pn).param_norm ^ 2 = sumSq pn) := by
  constructor
  · rw [grabber_apply_grad_ema, foldl_emaList_getD ema_beta _ L _
      (by simp [node_init]) (by
        intro g' hg'
        obtain ⟨st, hst, rfl⟩ := List.mem_map.mp hg'
        exact hg st hst) j hj]
    have hinit0 : ((node_init L).grad_ema).getD j 0 = 0 := by
      simp [node_init]
    rw [hinit0, ema_foldl_closed_form]
    simp only [List.length_map]
    congr 1
    apply Finset.sum_congr rfl
    intro i hi
    have hi' : i < steps.length := Finset.mem_range.mp hi
    have hidx : steps.length - 1 - i < steps.length := by omega
    congr 1
    rw [List.getD_eq_getElem _ _ (by simpa using hidx),
      List.getD_eq_getElem _ _ hidx, List.getElem_map, List.getElem_map]
  · intro s g po pn
    refine ⟨rfl, rfl, rfl, rfl, Real.sqrt_nonneg _, ?_⟩
    exact Real.sq_sqrt (sumSq_nonneg pn)

/-- The two-step gradient sequence of the spec's EMA scenario. -/
noncomputable def c3steps : List (List ℝ × List ℝ × List ℝ) :=
  [([1], [0], [0]), ([2], [0], [0])]

/-- Witness for `metrics_grabber_ema_closed_form`: `ema_beta = 1/2`,
two one-element gradients 1 then 2, inspected at component 0. -/
theorem metrics_grabber_ema_closed_form_witness :
    (grabber_apply (1/2 : ℝ) (node_init 1) c3steps).grad_ema.getD 0 0 =
      (1 - 1/2) * ∑ i ∈ Finset.range c3steps.length,
        (1/2 : ℝ) ^ i *
          (c3steps.getD (c3steps.length - 1 - i) ([], [], [])).1.getD 0 0 :=
  (metrics_grabber_ema_closed_form (1/2) ⟨by norm_num, by norm_num⟩ 1 c3steps
    (by
      intro st hst
      simp [c3steps] at hst
      rcases hst with rfl | rfl <;> rfl) 0 (by norm_num)).1

end I2W
